import Mathlib

/-!
# Verification of the erasure-decoded read path (`pkg/eestream/decode.go`)
and the bolt key-value client (`storage/boltdb`).

The Go source is shallowly embedded: the `decodedReader` state machine, its
`Read` and `Close` methods, the `decodedRanger` construction (`Decode`) and its
`Range` method, and `boltClient.Get`.  Stateful Go code becomes explicit state
passing; `int64`/`int` values that the claims constrain to be non-negative are
embedded as `Nat`, while values whose sign the source tests (`expectedSize`,
`mbm`, ranger sizes with the `-1` sentinel) are embedded as `Int`.

Collaborators of `decode.go` that live in this repository but outside the
provided sources (`StripeReader`, `readcloser.FatalReadCloser`,
`readcloser.LimitReadCloser`, `utils.CombineErrors`, `calcEncompassingBlocks`,
`checkMBM`) are modelled from the specification; each such definition carries a
doc comment saying so.
-/

/-- A byte stream is a list of bytes; the byte values themselves are opaque. -/
abbrev Bytes := List Nat

/-- The errors visible on this code path.  `eof` is Go's `io.EOF`
(the spec's `EndOfStream`); `wrapped` is `Error.Wrap`; `other n` stands for
an arbitrary opaque error (for instance a piece stream's close failure). -/
inductive Err where
  | eof : Err
  | negSize : Err
  | notMultiple : Err
  | invalidMBM : Err
  | notEnoughPieces : Err
  | sizeMismatch : Err
  | misaligned : Err
  | wrapped : Err → Err
  | other : Nat → Err
deriving DecidableEq, Repr

/-- The mutable fields of `decodedReader` that `Read` touches
(`decode.go:17-29`): the output buffer, the sticky error, the stripe cursor
and the stripe count derived from `expectedSize`. -/
structure DRState where
  outbuf : Bytes
  err : Option Err
  currentStripe : Nat
  expectedStripes : Nat
deriving DecidableEq, Repr

/-- The state a successful `DecodeReaders` builds (`decode.go:51-57`):
empty buffer, no error, cursor at stripe 0. -/
def initState (expectedStripes : Nat) : DRState :=
  { outbuf := [], err := none, currentStripe := 0, expectedStripes := expectedStripes }

/-- Modelled from the spec: `StripeReader.ReadStripe` (the stripe reader is not
among the provided sources).  Stripe `i` either decodes to a block (appended to
the scratch buffer passed in) or fails; on failure no decoded bytes are
returned.  A stripe source is therefore a function `Nat → Except Err Bytes`. -/
def readStripe (stripes : Nat → Except Err Bytes) (num : Nat) (scratch : Bytes) :
    Bytes × Option Err :=
  match stripes num with
  | .ok b => (scratch ++ b, none)
  | .error e => ([], some e)

/-- `decodedReader.Read` (`decode.go:67-94`).  Takes the requested buffer
size `sz` (Go's `len(p)`) and returns the bytes copied out (Go returns their
count `n` and writes them into `p`), the error, and the next state.
When the output buffer is empty it first reports a stored sticky error, then
end-of-stream once `expectedStripes` stripes were read, and otherwise refills
from the stripe reader; finally it copies `min sz (length outbuf)` bytes out
and slides the rest to the front. -/
def drRead (stripes : Nat → Except Err Bytes) (st : DRState) (sz : Nat) :
    Bytes × Option Err × DRState :=
  if st.outbuf.length = 0 then
    match st.err with
    | some e => ([], some e, st)
    | none =>
      if st.expectedStripes ≤ st.currentStripe then
        ([], some .eof, { st with err := some .eof })
      else
        match readStripe stripes st.currentStripe st.outbuf with
        | (ob, some e) => ([], some e, { st with outbuf := ob, err := some e })
        | (ob, none) =>
          let taken := ob.take sz
          (taken, none,
            { st with outbuf := ob.drop taken.length,
                      currentStripe := st.currentStripe + 1 })
  else
    let taken := st.outbuf.take sz
    (taken, none, { st with outbuf := st.outbuf.drop taken.length })

/-- Iterated `Read` calls with the given sequence of caller buffer sizes,
concatenating the bytes delivered. -/
def drReadMany (stripes : Nat → Except Err Bytes) :
    List Nat → DRState → Bytes × DRState
  | [], st => ([], st)
  | sz :: rest, st =>
    let r := drRead stripes st sz
    let r2 := drReadMany stripes rest r.2.2
    (r.1 ++ r2.1, r2.2)

/-- A reader returned by `DecodeReaders`: either the fatal reader produced on a
construction-contract violation, or a live `decodedReader`. -/
inductive DecReader where
  | fatal : Err → DecReader
  | ok : DRState → DecReader
deriving DecidableEq, Repr

/-- `DecodeReaders` (`decode.go:38-65`), restricted to the state `Read`
consumes.  The three construction checks are performed in source order:
negative expected size, expected size not a multiple of the decoded block
size, then the memory-budget check (`checkMBM`, not among the provided
sources; modelled from the spec as rejecting a negative budget with
`InvalidArgument`).  On success the reader starts at stripe 0 with
`expectedStripes = expectedSize / DecodedBlockSize`.  (For `dbs = 0` the Go
modulus would panic; all theorems below assume a positive block size.) -/
def DecodeReaders (dbs : Nat) (expectedSize mbm : Int) : DecReader :=
  if expectedSize < 0 then .fatal .negSize
  else if expectedSize % (dbs : Int) ≠ 0 then .fatal .notMultiple
  else if mbm < 0 then .fatal .invalidMBM
  else .ok (initState (expectedSize / (dbs : Int)).toNat)

/-- Modelled from the spec: `readcloser.FatalReadCloser` (not among the
provided sources) is "a reader whose first `read` yields the corresponding
error"; every read returns the stored error and no bytes. -/
def fatalRead (e : Err) : Bytes × Option Err := ([], some e)

/-- Modelled from the spec: `readcloser.FatalReadCloser.Close` is a no-op
success. -/
def fatalClose (_e : Err) : Option Err := none

/-- `Read` on a reader returned by `DecodeReaders`: a fatal reader always
reports its error; a live reader steps `drRead`. -/
def decRead (stripes : Nat → Except Err Bytes) (r : DecReader) (sz : Nat) :
    Bytes × Option Err × DecReader :=
  match r with
  | .fatal e => ((fatalRead e).1, (fatalRead e).2, .fatal e)
  | .ok st =>
    let q := drRead stripes st sz
    (q.1, q.2.1, .ok q.2.2)

/-- The block stripe `i` decodes to (empty if the stripe fails). -/
def blockAt (stripes : Nat → Except Err Bytes) (i : Nat) : Bytes :=
  match stripes i with
  | .ok b => b
  | .error _ => []

/-- The decoded bytes of `rem` consecutive stripes starting at stripe `cur`. -/
def tailBlocks (stripes : Nat → Except Err Bytes) : Nat → Nat → Bytes
  | _, 0 => []
  | cur, rem + 1 => blockAt stripes cur ++ tailBlocks stripes (cur + 1) rem

/-- All bytes a healthy reader in state `st` has yet to deliver: the buffered
bytes followed by the not-yet-read stripes. -/
def future (stripes : Nat → Except Err Bytes) (st : DRState) : Bytes :=
  st.outbuf ++ tailBlocks stripes st.currentStripe (st.expectedStripes - st.currentStripe)

/-- A reader state that has not yet errored and has not run past its stripe
count. -/
def Good (T : Nat) (st : DRState) : Prop :=
  st.err = none ∧ st.expectedStripes = T ∧ st.currentStripe ≤ T

/-- Every stripe below `T` decodes successfully to a block of `dbs` bytes
(the erasure scheme's postcondition, spec section 6). -/
def Healthy (stripes : Nat → Except Err Bytes) (T dbs : Nat) : Prop :=
  ∀ i, i < T → ∃ b, stripes i = Except.ok b ∧ b.length = dbs

/-- Number of positive entries in a list of requested buffer sizes. -/
def posCount (l : List Nat) : Nat := (l.filter (fun sz => 0 < sz)).length

/-- Modelled from the spec: `calcEncompassingBlocks` (not among the provided
sources).  `first_block = floor(offset / block_size)`;
`block_count = ceil((offset + length) / block_size) - first_block`, and
`block_count = 0` when `length = 0`. -/
def calcEncompassingBlocks (offset length blockSize : Nat) : Nat × Nat :=
  let firstBlock := offset / blockSize
  if length = 0 then (firstBlock, 0)
  else (firstBlock, (offset + length + blockSize - 1) / blockSize - firstBlock)

/-- The stripe source seen by the decoded reader that `decodedRanger.Range`
builds: stripe `i` of the sub-range decodes to block `firstBlock + i` of the
full decoded stream.  A block past the end of the stream corresponds to an
out-of-bounds sub-range request on every piece, whose failures are substituted
by fatal readers (`decode.go:188-195`), so the stripe fails. -/
def subStripes (X : Nat → Bytes) (numBlocks firstBlock : Nat) :
    Nat → Except Err Bytes :=
  fun i => if firstBlock + i < numBlocks then .ok (X (firstBlock + i))
           else .error .notEnoughPieces

/-- `io.CopyN(ioutil.Discard, r, d)` (`decode.go:199-200`): read and discard
exactly `d` bytes, reporting the reader's error, or `io.EOF` when the reader
ends early.  Modelled byte-at-a-time: the chunk sizes `io.Copy` uses are not
observable, since every `Read` just consumes a prefix of the pending bytes.
A read that returns no bytes and no error would make `io.Copy` spin; with a
positive block size that cannot happen, and the branch is mapped to the same
early-end result. -/
def discardN (stripes : Nat → Except Err Bytes) : Nat → DecReader → Except Err DecReader
  | 0, r => .ok r
  | d + 1, r =>
    match decRead stripes r 1 with
    | (_, some e, _) => .error e
    | (taken, none, r2) =>
      if taken.length = 0 then .error .eof
      else discardN stripes d r2

/-- Modelled from the spec: `readcloser.LimitReadCloser` (not among the
provided sources) returns "a reader that yields at most `length` bytes and
then EOF". -/
structure LimitedReader where
  inner : DecReader
  remaining : Nat
deriving DecidableEq, Repr

/-- One `Read` on the limited reader: once the limit is exhausted it returns
`io.EOF`; otherwise it reads from the wrapped reader with the request capped
at the remaining byte count. -/
def limRead (stripes : Nat → Except Err Bytes) (lr : LimitedReader) (sz : Nat) :
    Bytes × Option Err × LimitedReader :=
  if lr.remaining = 0 then ([], some .eof, lr)
  else
    let q := decRead stripes lr.inner (min sz lr.remaining)
    (q.1, q.2.1, ⟨q.2.2, lr.remaining - q.1.length⟩)

/-- Iterated reads on the limited reader. -/
def limReadMany (stripes : Nat → Except Err Bytes) :
    List Nat → LimitedReader → Bytes × LimitedReader
  | [], lr => ([], lr)
  | sz :: rest, lr =>
    let r := limRead stripes lr sz
    let r2 := limReadMany stripes rest r.2.2
    (r.1 ++ r2.1, r2.2)

/-- `decodedRanger.Range` (`decode.go:165-206`) for a ranger whose decoded
stream consists of `numBlocks` blocks given by `X`: compute the encompassing
block window, build a decoded reader over the window's stripes sized to
`blockCount * dbs`, discard the head bytes before `offset` (wrapping a discard
failure), and cap the result at `length` bytes. -/
def rangerRange (X : Nat → Bytes) (numBlocks dbs : Nat) (mbm : Int)
    (offset length : Nat) : Except Err LimitedReader :=
  let fbbc := calcEncompassingBlocks offset length dbs
  let stripes := subStripes X numBlocks fbbc.1
  let r := DecodeReaders dbs ((fbbc.2 : Int) * (dbs : Int)) mbm
  match discardN stripes (offset - fbbc.1 * dbs) r with
  | .error e => .error (Err.wrapped e)
  | .ok r1 => .ok ⟨r1, length⟩

/-- `len` consecutive decoded blocks starting at block `lo`, concatenated. -/
def segJoin (X : Nat → Bytes) (lo : Nat) : Nat → Bytes
  | 0 => []
  | len + 1 => X lo ++ segJoin X (lo + 1) len

/-- The full decoded stream of a ranger with `numBlocks` blocks. -/
def streamBytes (X : Nat → Bytes) (numBlocks : Nat) : Bytes := segJoin X 0 numBlocks

/-- `decodedRanger.Size` (`decode.go:160-163`). -/
def decodedRangerSize (inSize : Int) (ebs dbs : Nat) : Int :=
  (inSize / (ebs : Int)) * (dbs : Int)

/-- The size-agreement loop of `Decode` (`decode.go:133-143`): starting from
the sentinel `-1`, adopt the first ranger's size and require every later
ranger to match it. -/
def commonSize : List Int → Int → Except Err Int
  | [], acc => .ok acc
  | s :: rest, acc =>
    if acc = -1 then commonSize rest s
    else if acc ≠ s then .error .sizeMismatch
    else commonSize rest acc

/-- What `Decode` returns on success: `ranger.ByteRanger(nil)` (a zero-size
ranger) when no size was seen, or a `decodedRanger` with the common input
size. -/
inductive DecodeResult where
  | byteRangerNil : DecodeResult
  | ranger : Int → DecodeResult
deriving DecidableEq, Repr

/-- `Decode` (`decode.go:126-158`) over the piece rangers' reported sizes:
memory-budget check, piece-count check against `RequiredCount`, size
agreement, the `-1` (empty map) escape to `ByteRanger(nil)`, and the
encoded-block-size alignment check. -/
def Decode (k ebs : Nat) (sizes : List Int) (mbm : Int) : Except Err DecodeResult :=
  if mbm < 0 then .error .invalidMBM
  else if sizes.length < k then .error .notEnoughPieces
  else
    match commonSize sizes (-1) with
    | .error e => .error e
    | .ok size =>
      if size = -1 then .ok .byteRangerNil
      else if size % (ebs : Int) ≠ 0 then .error .misaligned
      else .ok (.ranger size)

/-- Go slice store `l[i] = v`: in bounds it updates, out of bounds it panics
(`none`). -/
def writeAt (l : List α) (i : Nat) (v : α) : Option (List α) :=
  if i < l.length then some (l.set i v) else none

/-- The close loop of `decodedReader.Close` (`decode.go:103-105`):
`for i, r := range dr.readers { errs[i] = r.Close() }`, iterating the map keys
in the order `order`.  Returns the final slice, or `none` on an out-of-bounds
store (Go panic), together with the list of keys whose reader's `Close` ran
(the reader at the panicking key is closed before the store panics). -/
def closeLoop (closeRes : Nat → Option Err) :
    List Nat → List (Option Err) → Option (List (Option Err)) × List Nat
  | [], errs => (some errs, [])
  | k :: rest, errs =>
    match writeAt errs k (closeRes k) with
    | none => (none, [k])
    | some errs2 =>
      let r := closeLoop closeRes rest errs2
      (r.1, k :: r.2)

/-- Modelled from the spec: `utils.CombineErrors` (not among the provided
sources) combines a slice of per-component errors "into a single aggregate
...; a nil aggregate indicates all components closed cleanly": the non-nil
errors in slice order, `none` when there are none. -/
def combineErrors (errs : List (Option Err)) : Option (List Err) :=
  match errs.filterMap id with
  | [] => none
  | e :: rest => some (e :: rest)

/-- The canonical combined close error: the piece errors in ascending piece
index followed by the stripe reader's, fed through `CombineErrors`. -/
def closeAggregate (closeRes : Nat → Option Err) (stripeRes : Option Err) (n : Nat) :
    Option (List Err) :=
  combineErrors ((List.range n).map closeRes ++ [stripeRes])

/-- Ghost accounting: each occurrence of a key in `processed` closed that
piece's stream once. -/
def bumpAll (processed : List Nat) (cnt : Nat → Nat) : Nat → Nat :=
  fun j => cnt j + processed.count j

/-- The full `decodedReader` as `Close` sees it: the read-side state, the
enumeration of the piece-reader map's keys, the `sync.Once` latch and the
stored combined close error (`decode.go:17-29`), plus ghost counters for how
often each piece stream's `Close` and the stripe reader's `Close` ran. -/
structure DRFull where
  rd : DRState
  keys : List Nat
  onceDone : Bool
  closeErrStored : Option (List Err)
  pieceCloseCnt : Nat → Nat
  stripeCloseCnt : Nat

/-- A freshly constructed `decodedReader` over a piece-reader map with the
given key enumeration: nothing closed yet. -/
def freshState (keys : List Nat) (expectedStripes : Nat) : DRFull :=
  { rd := initState expectedStripes
    keys := keys
    onceDone := false
    closeErrStored := none
    pieceCloseCnt := fun _ => 0
    stripeCloseCnt := 0 }

/-- `decodedReader.Close` (`decode.go:96-111`).  Outside the `sync.Once` body
it returns the stored `closeErr`; the body allocates `errs` of length
`len(readers) + 1`, closes every piece reader storing its error at the slot of
its map key, closes the stripe reader into the last slot, and combines.  The
first component is `none` when the body panics on an out-of-bounds store (no
aggregate is returned); `sync.Once` still marks the latch done via its
deferred store.  `closeRes k` is piece `k`'s close result and `stripeRes` the
stripe reader's. -/
def closeStep (closeRes : Nat → Option Err) (stripeRes : Option Err) (s : DRFull) :
    Option (Option (List Err)) × DRFull :=
  if s.onceDone then (some s.closeErrStored, s)
  else
    let n := s.keys.length
    let lp := closeLoop closeRes s.keys (List.replicate (n + 1) none)
    match lp.1 with
    | none =>
      (none, { s with onceDone := true, pieceCloseCnt := bumpAll lp.2 s.pieceCloseCnt })
    | some errs =>
      let errs2 := errs.set n stripeRes
      let agg := combineErrors errs2
      (some agg,
        { s with onceDone := true, closeErrStored := agg,
                 pieceCloseCnt := bumpAll lp.2 s.pieceCloseCnt,
                 stripeCloseCnt := s.stripeCloseCnt + 1 })

/-- An operation a caller may perform on the reader: a `Read` with a buffer of
the given size, or a `Close` (the context-cancel watcher goroutine's `Close`
is one more such call in the interleaving). -/
inductive Op where
  | read : Nat → Op
  | close : Op
deriving DecidableEq, Repr

/-- Run a sequence of `Read`/`Close` calls, collecting each `Close` call's
outcome in order (`none` marks a panic, `some agg` a returned aggregate). -/
def runOps (stripes : Nat → Except Err Bytes) (closeRes : Nat → Option Err)
    (stripeRes : Option Err) :
    List Op → DRFull → List (Option (Option (List Err))) × DRFull
  | [], s => ([], s)
  | .read sz :: rest, s =>
    runOps stripes closeRes stripeRes rest { s with rd := (drRead stripes s.rd sz).2.2 }
  | .close :: rest, s =>
    ((closeStep closeRes stripeRes s).1 ::
       (runOps stripes closeRes stripeRes rest (closeStep closeRes stripeRes s).2).1,
     (runOps stripes closeRes stripeRes rest (closeStep closeRes stripeRes s).2).2)

/-- A bolt bucket: association list from keys to stored values.  A stored nil
value is an entry whose value is `none` (bolt's `Bucket.Get` returns nil both
for it and for an absent key). -/
def bucketGet (bucket : List (Bytes × Option Bytes)) (key : Bytes) : Option Bytes :=
  match bucket.find? (fun kv => kv.1 == key) with
  | none => none
  | some kv => kv.2

/-- `boltClient.Get` (`storage/boltdb`, src/unnamed/part_000:67-83): inside a
transaction, look the key up in the client's bucket; if the transaction itself
fails (`txErr`, an external database failure — the transaction body always
returns nil) return `(nil, err)`, otherwise return the looked-up bytes with a
nil error. -/
def boltGet (bucket : List (Bytes × Option Bytes)) (txErr : Option Err)
    (key : Bytes) : Option Bytes × Option Err :=
  let pointerBytes := bucketGet bucket key
  match txErr with
  | some e => (none, some e)
  | none => (pointerBytes, none)

/-! ## Lemmas about the sequential decoded reader -/

/-- A read in a state whose sticky error is set (the error states the reader
actually produces have an empty buffer) returns the stored error and changes
nothing. -/
lemma drRead_stuck {stripes : Nat → Except Err Bytes} {st : DRState} {e : Err}
    (herr : st.err = some e) (hbuf : st.outbuf = []) (sz : Nat) :
    drRead stripes st sz = ([], some e, st) := by
  simp [drRead, hbuf, herr]

/-- Iterated reads in an errored state deliver nothing and stay put. -/
lemma drReadMany_stuck {stripes : Nat → Except Err Bytes} {st : DRState} {e : Err}
    (herr : st.err = some e) (hbuf : st.outbuf = []) (sizes : List Nat) :
    drReadMany stripes sizes st = ([], st) := by
  induction sizes with
  | nil => rfl
  | cons sz rest ih =>
    simp [drReadMany, drRead_stuck herr hbuf, ih]

lemma tailBlocks_length {stripes : Nat → Except Err Bytes} {T dbs : Nat}
    (hs : Healthy stripes T dbs) :
    ∀ rem cur, cur + rem ≤ T → (tailBlocks stripes cur rem).length = rem * dbs := by
  intro rem
  induction rem with
  | zero => intro cur _; simp [tailBlocks]
  | succ r ih =>
    intro cur hle
    obtain ⟨b, hb, hlen⟩ := hs cur (by omega)
    simp only [tailBlocks, List.length_append, blockAt, hb, hlen,
      ih (cur + 1) (by omega)]
    ring

lemma future_eq_nil {stripes : Nat → Except Err Bytes} {T dbs : Nat} {st : DRState}
    (hdbs : 0 < dbs) (hs : Healthy stripes T dbs) (hg : Good T st)
    (hnil : future stripes st = []) :
    st.outbuf = [] ∧ st.currentStripe = T := by
  obtain ⟨herr, hT, hcur⟩ := hg
  rcases List.append_eq_nil.mp hnil with ⟨h1, h2⟩
  refine ⟨h1, ?_⟩
  by_contra hne
  have hlt : st.currentStripe < T := by omega
  obtain ⟨rem, hrem⟩ : ∃ rem, st.expectedStripes - st.currentStripe = rem + 1 :=
    ⟨T - st.currentStripe - 1, by omega⟩
  obtain ⟨b, hb, hlen⟩ := hs st.currentStripe hlt
  rw [hrem] at h2
  simp only [tailBlocks, blockAt, hb] at h2
  rcases List.append_eq_nil.mp h2 with ⟨h3, _⟩
  rw [h3] at hlen
  simp at hlen
  omega

/-- The single-step behavior of `Read` in a healthy, not-yet-finished state:
it delivers a prefix of the pending bytes (nonempty whenever the request is),
leaves no error, and the pending bytes shrink by exactly what was taken. -/
lemma drRead_good_step {stripes : Nat → Except Err Bytes} {T dbs : Nat} {st : DRState}
    (hdbs : 0 < dbs) (hs : Healthy stripes T dbs) (hg : Good T st)
    (hne : future stripes st ≠ []) (sz : Nat) :
    ∃ n st2, drRead stripes st sz = ((future stripes st).take n, none, st2) ∧
      Good T st2 ∧ future stripes st2 = (future stripes st).drop n ∧
      n ≤ sz ∧ n ≤ (future stripes st).length ∧ (0 < sz → 0 < n) := by
  obtain ⟨herr, hT, hcur⟩ := hg
  by_cases hbuf : st.outbuf.length = 0
  · -- the output buffer is empty: the reader refills from the next stripe
    have hbufnil : st.outbuf = [] := List.length_eq_zero.mp hbuf
    have hlt : st.currentStripe < T := by
      by_contra hge
      have hTc : st.currentStripe = T := by omega
      apply hne
      simp [future, hbufnil, hT, hTc, tailBlocks]
    obtain ⟨b, hb, hlen⟩ := hs st.currentStripe hlt
    have hrem : st.expectedStripes - st.currentStripe =
        (st.expectedStripes - (st.currentStripe + 1)) + 1 := by omega
    have hfut : future stripes st =
        b ++ tailBlocks stripes (st.currentStripe + 1)
          (st.expectedStripes - (st.currentStripe + 1)) := by
      simp [future, hbufnil, hrem, tailBlocks, blockAt, hb]
    have hnle : ¬ st.expectedStripes ≤ st.currentStripe := by omega
    have hnlen : (b.take sz).length ≤ b.length := by
      simp [List.length_take]
    have hstep : drRead stripes st sz =
        (b.take sz, none,
          { st with outbuf := b.drop (b.take sz).length,
                    currentStripe := st.currentStripe + 1 }) := by
      simp [drRead, hbufnil, herr, hnle, readStripe, hb]
    refine ⟨(b.take sz).length,
      { st with outbuf := b.drop (b.take sz).length,
                currentStripe := st.currentStripe + 1 },
      ?_, ?_, ?_, ?_, ?_, ?_⟩
    · rw [hstep, hfut, List.take_append_of_le_length hnlen]
      have htk : b.take ((b.take sz).length) = b.take sz := by
        rw [List.take_eq_take, List.length_take]
        omega
      rw [htk]
    · exact ⟨herr, hT, by show st.currentStripe + 1 ≤ T; omega⟩
    · show b.drop (b.take sz).length ++ _ = _
      rw [hfut, List.drop_append_of_le_length hnlen]
    · simp [List.length_take]
    · rw [hfut]
      simp [List.length_take, List.length_append]
    · intro hsz
      simp only [List.length_take, lt_min_iff]
      omega
  · -- bytes are already buffered: the reader just copies them out
    have hfut : future stripes st =
        st.outbuf ++ tailBlocks stripes st.currentStripe
          (st.expectedStripes - st.currentStripe) := rfl
    have hnlen : (st.outbuf.take sz).length ≤ st.outbuf.length := by
      simp [List.length_take]
    have hstep : drRead stripes st sz =
        (st.outbuf.take sz, none,
          { st with outbuf := st.outbuf.drop (st.outbuf.take sz).length }) := by
      simp [drRead, hbuf]
    refine ⟨(st.outbuf.take sz).length,
      { st with outbuf := st.outbuf.drop (st.outbuf.take sz).length },
      ?_, ?_, ?_, ?_, ?_, ?_⟩
    · rw [hstep, hfut, List.take_append_of_le_length hnlen]
      have htk : st.outbuf.take ((st.outbuf.take sz).length) = st.outbuf.take sz := by
        rw [List.take_eq_take, List.length_take]
        omega
      rw [htk]
    · exact ⟨herr, hT, hcur⟩
    · show st.outbuf.drop (st.outbuf.take sz).length ++ _ = _
      rw [hfut, List.drop_append_of_le_length hnlen]
    · simp [List.length_take]
    · rw [hfut]
      simp [List.length_take, List.length_append]
    · intro hsz
      simp only [List.length_take, lt_min_iff]
      omega

lemma posCount_cons (sz : Nat) (rest : List Nat) :
    posCount (sz :: rest) = (if 0 < sz then 1 else 0) + posCount rest := by
  by_cases h : 0 < sz
  · simp [posCount, List.filter, h]
    omega
  · simp [posCount, List.filter, h]

/-- Draining a healthy reader: with enough positive-size reads, the reads
deliver exactly the pending bytes and then the reader parks on `io.EOF` with
an empty buffer. -/
lemma drReadMany_drain {stripes : Nat → Except Err Bytes} {T dbs : Nat}
    (hdbs : 0 < dbs) (hs : Healthy stripes T dbs) :
    ∀ sizes st, Good T st → (future stripes st).length + 1 ≤ posCount sizes →
      ∃ st2, drReadMany stripes sizes st = (future stripes st, st2) ∧
        st2.err = some .eof ∧ st2.outbuf = [] := by
  intro sizes
  induction sizes with
  | nil => intro st _ hn; simp [posCount] at hn
  | cons sz rest ih =>
    intro st hg hn
    by_cases hnil : future stripes st = []
    · obtain ⟨hbuf, hcurT⟩ := future_eq_nil hdbs hs hg hnil
      have hstep : drRead stripes st sz = ([], some .eof, { st with err := some .eof }) := by
        have : st.expectedStripes ≤ st.currentStripe := by
          rw [hg.2.1, hcurT]
        simp [drRead, hbuf, hg.1, this]
      have habs := @drReadMany_stuck stripes
        { st with err := some Err.eof } Err.eof rfl hbuf rest
      refine ⟨{ st with err := some .eof }, ?_, rfl, hbuf⟩
      simp only [drReadMany, hstep, habs, hnil, List.nil_append]
    · obtain ⟨n, st2, hstep, hg2, hfut2, hnsz, hnlen, hpos⟩ :=
        drRead_good_step hdbs hs hg hnil sz
      have hlen1 : 1 ≤ (future stripes st).length :=
        List.length_pos.mpr hnil
      have hrest : (future stripes st2).length + 1 ≤ posCount rest := by
        rw [hfut2, List.length_drop]
        rw [posCount_cons] at hn
        by_cases hsz : 0 < sz
        · have := hpos hsz
          simp [hsz] at hn
          omega
        · have hsz0 : sz = 0 := by omega
          have hn0 : n = 0 := by omega
          simp [hsz0] at hn
          omega
      obtain ⟨st3, hmany, herr3, hbuf3⟩ := ih st2 hg2 hrest
      refine ⟨st3, ?_, herr3, hbuf3⟩
      simp only [drReadMany, hstep, hmany, hfut2]
      rw [List.take_append_drop]

lemma future_initState (stripes : Nat → Except Err Bytes) (T : Nat) :
    future stripes (initState T) = tailBlocks stripes 0 T := by
  simp [future, initState]

/-- For a positive block size, `DecodeReaders` with `expectedSize = T * dbs`
(a non-negative multiple of the block size) and a valid budget builds the live
reader expecting `T` stripes. -/
lemma DecodeReaders_ok (dbs T : Nat) (mbm : Int) (hdbs : 0 < dbs) (hmbm : 0 ≤ mbm) :
    DecodeReaders dbs ((T : Int) * (dbs : Int)) mbm = DecReader.ok (initState T) := by
  have hdne : (dbs : Int) ≠ 0 := by
    simp
    omega
  have h1 : ¬ ((T : Int) * (dbs : Int) < 0) := not_lt.mpr (by positivity)
  have h2 : (T : Int) * (dbs : Int) % (dbs : Int) = 0 := Int.mul_emod_left T dbs
  have h3 : ¬ (mbm < 0) := by omega
  have h4 : (T : Int) * (dbs : Int) / (dbs : Int) = (T : Int) :=
    Int.mul_ediv_cancel T hdne
  simp [DecodeReaders, h1, h2, h3, h4]

/-! ## Lemmas about the ranger read path -/

/-- Discarding from a healthy reader consumes exactly the head of the pending
bytes. -/
lemma discardN_good {stripes : Nat → Except Err Bytes} {T dbs : Nat}
    (hdbs : 0 < dbs) (hs : Healthy stripes T dbs) :
    ∀ d st, Good T st → d ≤ (future stripes st).length →
      ∃ st2, discardN stripes d (DecReader.ok st) = Except.ok (DecReader.ok st2) ∧
        Good T st2 ∧ future stripes st2 = (future stripes st).drop d := by
  intro d
  induction d with
  | zero => intro st hg _; exact ⟨st, rfl, hg, by simp⟩
  | succ d ih =>
    intro st hg hd
    have hne : future stripes st ≠ [] := by
      intro hnil
      rw [hnil] at hd
      simp at hd
    obtain ⟨n, st2, hstep, hg2, hfut2, hnsz, hnlen, hpos⟩ :=
      drRead_good_step hdbs hs hg hne 1
    have hn1 : n = 1 := by
      have := hpos (by omega)
      omega
    subst hn1
    have hdec : decRead stripes (DecReader.ok st) 1 =
        ((future stripes st).take 1, none, DecReader.ok st2) := by
      simp [decRead, hstep]
    have htl : ((future stripes st).take 1).length = 1 := by
      simp [List.length_take]
      omega
    rw [discardN, hdec]
    simp only [htl]
    rw [if_neg (by omega)]
    have hd2 : d ≤ (future stripes st2).length := by
      rw [hfut2, List.length_drop]
      omega
    obtain ⟨st3, heq3, hg3, hfut3⟩ := ih st2 hg2 hd2
    refine ⟨st3, heq3, hg3, ?_⟩
    rw [hfut3, hfut2, List.drop_drop, Nat.add_comm]

lemma limReadMany_zero (stripes : Nat → Except Err Bytes) :
    ∀ (sizes : List Nat) (r : DecReader),
      limReadMany stripes sizes ⟨r, 0⟩ = ([], ⟨r, 0⟩) := by
  intro sizes
  induction sizes with
  | nil => intro r; rfl
  | cons sz rest ih =>
    intro r
    simp [limReadMany, limRead, ih r]

/-- Draining the limited reader over a healthy inner reader with at least
`rem` pending bytes: with enough positive-size reads it yields exactly the
first `rem` pending bytes and ends with the limit exhausted. -/
lemma limReadMany_drain {stripes : Nat → Except Err Bytes} {T dbs : Nat}
    (hdbs : 0 < dbs) (hs : Healthy stripes T dbs) :
    ∀ (sizes : List Nat) (st : DRState) (rem : Nat), Good T st →
      rem ≤ (future stripes st).length → rem + 1 ≤ posCount sizes →
      ∃ st2, limReadMany stripes sizes ⟨DecReader.ok st, rem⟩ =
        ((future stripes st).take rem, ⟨DecReader.ok st2, 0⟩) := by
  intro sizes
  induction sizes with
  | nil =>
    intro st rem _ _ hn
    simp [posCount] at hn
  | cons sz rest ih =>
    intro st rem hg hrem hn
    match hremv : rem with
    | 0 => exact ⟨st, by simp [limReadMany, limRead, limReadMany_zero]⟩
    | r + 1 =>
      have hne : future stripes st ≠ [] := by
        intro hnil
        rw [hnil] at hrem
        simp at hrem
      obtain ⟨n, st2, hstep, hg2, hfut2, hnsz, hnlen, hpos⟩ :=
        drRead_good_step hdbs hs hg hne (min sz (r + 1))
      have htl : ((future stripes st).take n).length = n := by
        simp [List.length_take]
        omega
      have hlim : limRead stripes ⟨DecReader.ok st, r + 1⟩ sz =
          ((future stripes st).take n, none, ⟨DecReader.ok st2, r + 1 - n⟩) := by
        simp only [limRead]
        rw [if_neg (by omega)]
        simp [decRead, hstep, htl]
      by_cases hsz : 0 < sz
      · have hn1 : 0 < n := hpos (by omega)
        have hrec : r + 1 - n ≤ (future stripes st2).length := by
          rw [hfut2, List.length_drop]
          omega
        have hcnt : (r + 1 - n) + 1 ≤ posCount rest := by
          rw [posCount_cons, if_pos hsz] at hn
          omega
        obtain ⟨st3, heq3⟩ := ih st2 (r + 1 - n) hg2 hrec hcnt
        refine ⟨st3, ?_⟩
        simp only [limReadMany, hlim, heq3, hfut2]
        refine congrArg (fun x => (x, _)) ?_
        have hnr : n ≤ r + 1 := le_trans hnsz (Nat.min_le_right _ _)
        have hadd : r + 1 = n + (r + 1 - n) := by omega
        rw [← List.take_add]
        refine congrArg (fun m => (future stripes st).take m) ?_
        omega
      · have hsz0 : sz = 0 := by omega
        have hn0 : n = 0 := by
          have := hnsz
          rw [hsz0] at this
          simpa using this
        have hcnt : (r + 1) + 1 ≤ posCount rest := by
          rw [posCount_cons, if_neg hsz] at hn
          omega
        have hfeq : future stripes st2 = future stripes st := by
          rw [hfut2, hn0]
          simp
        obtain ⟨st3, heq3⟩ := ih st2 (r + 1) hg2 (by rw [hfeq]; exact hrem) hcnt
        rw [hfeq] at heq3
        refine ⟨st3, ?_⟩
        simp only [limReadMany, hlim, hn0]
        simpa using heq3

lemma segJoin_append (X : Nat → Bytes) :
    ∀ (a : Nat) (lo b : Nat),
      segJoin X lo (a + b) = segJoin X lo a ++ segJoin X (lo + a) b := by
  intro a
  induction a with
  | zero => intro lo b; simp [segJoin]
  | succ a ih =>
    intro lo b
    have hrw : a + 1 + b = (a + b) + 1 := by omega
    rw [hrw]
    show X lo ++ segJoin X (lo + 1) (a + b) = (X lo ++ segJoin X (lo + 1) a) ++ _
    rw [ih (lo + 1) b, List.append_assoc]
    refine congrArg (fun m => X lo ++ (segJoin X (lo + 1) a ++ segJoin X m b)) ?_
    omega

lemma segJoin_length (X : Nat → Bytes) (dbs : Nat) :
    ∀ (len lo : Nat), (∀ j, lo ≤ j → j < lo + len → (X j).length = dbs) →
      (segJoin X lo len).length = len * dbs := by
  intro len
  induction len with
  | zero => intro lo _; simp [segJoin]
  | succ len ih =>
    intro lo hX
    show (X lo ++ segJoin X (lo + 1) len).length = _
    rw [List.length_append, hX lo le_rfl (by omega),
      ih (lo + 1) (fun j h1 h2 => hX j (by omega) (by omega))]
    ring

lemma tailBlocks_subStripes (X : Nat → Bytes) (numBlocks fb : Nat) :
    ∀ (rem cur : Nat), fb + cur + rem ≤ numBlocks →
      tailBlocks (subStripes X numBlocks fb) cur rem = segJoin X (fb + cur) rem := by
  intro rem
  induction rem with
  | zero => intro cur _; rfl
  | succ rem ih =>
    intro cur hle
    show blockAt (subStripes X numBlocks fb) cur ++
        tailBlocks (subStripes X numBlocks fb) (cur + 1) rem =
      X (fb + cur) ++ segJoin X (fb + cur + 1) rem
    rw [ih (cur + 1) (by omega)]
    refine congrArg₂ (fun u v => u ++ v) ?_ ?_
    · have hlt : fb + cur < numBlocks := by omega
      simp [blockAt, subStripes, hlt]
    · refine congrArg (fun m => segJoin X m rem) ?_
      omega

/-- Every stripe of the block window `[fb, fb + bc)` decodes to the matching
stream block of `dbs` bytes. -/
lemma healthy_subStripes (X : Nat → Bytes) (numBlocks fb bc dbs : Nat)
    (hX : ∀ j, j < numBlocks → (X j).length = dbs)
    (hwin : fb + bc ≤ numBlocks) :
    Healthy (subStripes X numBlocks fb) bc dbs := by
  intro i hi
  have hlt : fb + i < numBlocks := by omega
  exact ⟨X (fb + i), by simp [subStripes, hlt], hX (fb + i) hlt⟩

/-- Arithmetic facts about the encompassing block window for a positive
request length. -/
lemma calc_window_pos (offset length dbs numBlocks : Nat)
    (hdbs : 0 < dbs) (hlen : 0 < length)
    (hbound : offset + length ≤ numBlocks * dbs) :
    (calcEncompassingBlocks offset length dbs).1 = offset / dbs ∧
    (calcEncompassingBlocks offset length dbs).1 +
      (calcEncompassingBlocks offset length dbs).2 =
        (offset + length + dbs - 1) / dbs ∧
    (calcEncompassingBlocks offset length dbs).1 +
      (calcEncompassingBlocks offset length dbs).2 ≤ numBlocks ∧
    offset + length ≤
      ((calcEncompassingBlocks offset length dbs).1 +
        (calcEncompassingBlocks offset length dbs).2) * dbs ∧
    0 < (calcEncompassingBlocks offset length dbs).2 := by
  have hfb : (calcEncompassingBlocks offset length dbs).1 = offset / dbs := by
    simp only [calcEncompassingBlocks]
    split
    · rfl
    · rfl
  have hbc : (calcEncompassingBlocks offset length dbs).2 =
      (offset + length + dbs - 1) / dbs - offset / dbs := by
    simp only [calcEncompassingBlocks]
    rw [if_neg (by omega)]
  have hle1 : offset / dbs ≤ (offset + length + dbs - 1) / dbs :=
    Nat.div_le_div_right (by omega)
  have hceil : (offset + length + dbs - 1) / dbs ≤ numBlocks := by
    rw [Nat.div_le_iff_le_mul_add_pred hdbs]
    have hc : numBlocks * dbs = dbs * numBlocks := Nat.mul_comm _ _
    omega
  have hmul : offset + length ≤ ((offset + length + dbs - 1) / dbs) * dbs := by
    have hdm := Nat.div_add_mod (offset + length + dbs - 1) dbs
    have hml : (offset + length + dbs - 1) % dbs < dbs := Nat.mod_lt _ hdbs
    have hc : ((offset + length + dbs - 1) / dbs) * dbs =
        dbs * ((offset + length + dbs - 1) / dbs) := Nat.mul_comm _ _
    omega
  have hbcpos : 0 < (calcEncompassingBlocks offset length dbs).2 := by
    rw [hbc]
    have hstep : offset / dbs + 1 = (offset + dbs) / dbs := (Nat.add_div_right offset hdbs).symm
    have hle2 : (offset + dbs) / dbs ≤ (offset + length + dbs - 1) / dbs :=
      Nat.div_le_div_right (by omega)
    omega
  have hsum : (calcEncompassingBlocks offset length dbs).1 +
      (calcEncompassingBlocks offset length dbs).2 =
      (offset + length + dbs - 1) / dbs := by
    rw [hfb, hbc]
    omega
  refine ⟨hfb, hsum, ?_, ?_, hbcpos⟩
  · rw [hsum]
    exact hceil
  · rw [hsum]
    exact hmul

/-- For an offset within the stream, the head discard
`offset - firstBlock * decodedBlockSize` is the offset's remainder modulo the
block size (in particular zero for aligned offsets, and below `dbs`). -/
lemma head_discard_eq_mod (offset length dbs : Nat) (hdbs : 0 < dbs) :
    offset - (calcEncompassingBlocks offset length dbs).1 * dbs = offset % dbs ∧
    (calcEncompassingBlocks offset length dbs).1 * dbs ≤ offset ∧
    offset % dbs < dbs := by
  have hfb : (calcEncompassingBlocks offset length dbs).1 = offset / dbs := by
    simp only [calcEncompassingBlocks]
    split
    · rfl
    · rfl
  have hdm := Nat.div_add_mod offset dbs
  have hml : offset % dbs < dbs := Nat.mod_lt _ hdbs
  have hc : offset / dbs * dbs = dbs * (offset / dbs) := Nat.mul_comm _ _
  rw [hfb]
  omega

/-- The decoded stream split around the block window. -/
lemma streamBytes_split (X : Nat → Bytes) (numBlocks fb bc : Nat)
    (hwin : fb + bc ≤ numBlocks) :
    streamBytes X numBlocks =
      segJoin X 0 fb ++ (segJoin X fb bc ++ segJoin X (fb + bc) (numBlocks - fb - bc)) := by
  have hnb : numBlocks = fb + (bc + (numBlocks - fb - bc)) := by omega
  rw [streamBytes]
  conv_lhs => rw [hnb]
  rw [segJoin_append X fb 0 (bc + (numBlocks - fb - bc))]
  rw [segJoin_append X bc (0 + fb) (numBlocks - fb - bc)]
  simp

lemma rangerRange_eq (X : Nat → Bytes) (numBlocks dbs : Nat) (mbm : Int)
    (offset length : Nat) :
    rangerRange X numBlocks dbs mbm offset length =
      match discardN (subStripes X numBlocks (calcEncompassingBlocks offset length dbs).1)
        (offset - (calcEncompassingBlocks offset length dbs).1 * dbs)
        (DecodeReaders dbs (((calcEncompassingBlocks offset length dbs).2 : Int) * (dbs : Int))
          mbm) with
      | .error e => .error (Err.wrapped e)
      | .ok r1 => .ok ⟨r1, length⟩ := rfl

/-- Discarding a positive head from a decoded reader that expects zero
stripes fails with `io.EOF` (which `Range` then wraps). -/
lemma discardN_eof (stripes : Nat → Except Err Bytes) (d : Nat) (hd : 0 < d) :
    discardN stripes d (DecReader.ok (initState 0)) = Except.error Err.eof := by
  match d with
  | m + 1 =>
    have hdec : decRead stripes (DecReader.ok (initState 0)) 1 =
        ([], some Err.eof,
          DecReader.ok { initState 0 with err := some Err.eof }) := by
      simp [decRead, drRead, initState]
    rw [discardN, hdec]

lemma calc_zero_length (offset dbs : Nat) :
    calcEncompassingBlocks offset 0 dbs = (offset / dbs, 0) := by
  simp [calcEncompassingBlocks]

/-- `Range` with `length = 0` at a block-aligned offset: zero blocks are
covered, nothing is discarded, and the empty limited reader is returned. -/
lemma rangerRange_zero_aligned (X : Nat → Bytes) (numBlocks dbs : Nat) (mbm : Int)
    (offset : Nat) (hdbs : 0 < dbs) (hmbm : 0 ≤ mbm) (hal : offset % dbs = 0) :
    rangerRange X numBlocks dbs mbm offset 0 =
      Except.ok ⟨DecReader.ok (initState 0), 0⟩ := by
  obtain ⟨hdisc, hfble, hmod⟩ := head_discard_eq_mod offset 0 dbs hdbs
  have hd0 : offset - (calcEncompassingBlocks offset 0 dbs).1 * dbs = 0 := by
    rw [hdisc, hal]
  have hbc0 : (calcEncompassingBlocks offset 0 dbs).2 = 0 := by
    rw [calc_zero_length]
  rw [rangerRange_eq, hbc0, hd0]
  have hdr : DecodeReaders dbs (((0 : Nat) : Int) * (dbs : Int)) mbm =
      DecReader.ok (initState 0) := DecodeReaders_ok dbs 0 mbm hdbs hmbm
  rw [hdr]
  rfl

lemma commonSize_replicate_zero :
    ∀ n, commonSize (List.replicate n 0) 0 = Except.ok 0 := by
  intro n
  induction n with
  | zero => rfl
  | succ n ih => simpa [List.replicate, commonSize] using ih

lemma commonSize_replicate_zero_start (m : Nat) (hm : 0 < m) :
    commonSize (List.replicate m 0) (-1) = Except.ok 0 := by
  match m with
  | n + 1 =>
    show commonSize (0 :: List.replicate n 0) (-1) = Except.ok 0
    simp only [commonSize, if_pos rfl]
    exact commonSize_replicate_zero n

/-! ## Lemmas about `Close` -/

lemma closeLoop_sound (closeRes : Nat → Option Err) :
    ∀ (order : List Nat) (errs : List (Option Err)),
      (∀ k ∈ order, k < errs.length) →
      ∃ res, closeLoop closeRes order errs = (some res, order) ∧
        res.length = errs.length ∧
        ∀ j, j < errs.length →
          res[j]? = if j ∈ order then some (closeRes j) else errs[j]? := by
  intro order
  induction order with
  | nil =>
    intro errs _
    exact ⟨errs, rfl, rfl, fun j _ => by simp⟩
  | cons k rest ih =>
    intro errs hb
    have hk : k < errs.length := hb k (List.mem_cons_self k rest)
    have hw : writeAt errs k (closeRes k) = some (errs.set k (closeRes k)) := by
      simp [writeAt, hk]
    have hb2 : ∀ k2 ∈ rest, k2 < (errs.set k (closeRes k)).length := by
      intro k2 hk2
      simpa using hb k2 (List.mem_cons_of_mem k hk2)
    obtain ⟨res, heq, hlen, hpt⟩ := ih (errs.set k (closeRes k)) hb2
    refine ⟨res, ?_, by simpa using hlen, ?_⟩
    · simp [closeLoop, hw, heq]
    · intro j hj
      have hj2 : j < (errs.set k (closeRes k)).length := by simpa using hj
      rw [hpt j hj2]
      by_cases hjr : j ∈ rest
      · simp [hjr]
      · by_cases hjk : j = k
        · subst hjk
          simp [hjr, List.getElem?_set_self, hk]
        · simp [hjr, hjk, List.getElem?_set_ne (Ne.symm hjk)]

/-- Iterating the close loop over any enumeration of the contiguous key set
`{0, …, n-1}` never goes out of bounds and produces the canonical error slice
`[closeRes 0, …, closeRes (n-1), nil]`, independent of the enumeration
order. -/
lemma closeLoop_perm (closeRes : Nat → Option Err) (keys : List Nat)
    (hperm : keys.Perm (List.range keys.length)) :
    closeLoop closeRes keys (List.replicate (keys.length + 1) none) =
      (some ((List.range keys.length).map closeRes ++ [(none : Option Err)]),
       keys) := by
  have hmem : ∀ j, j ∈ keys ↔ j < keys.length := by
    intro j
    rw [hperm.mem_iff, List.mem_range]
  have hb : ∀ k ∈ keys, k < (List.replicate (keys.length + 1) (none : Option Err)).length := by
    intro k hk
    have := (hmem k).mp hk
    simp
    omega
  obtain ⟨res, heq, hlen, hpt⟩ := closeLoop_sound closeRes keys _ hb
  have hres : res = (List.range keys.length).map closeRes ++ [(none : Option Err)] := by
    apply List.ext_getElem?
    intro j
    by_cases hj : j < keys.length + 1
    · have hj2 : j < (List.replicate (keys.length + 1) (none : Option Err)).length := by
        simpa using hj
      rw [hpt j hj2]
      by_cases hjn : j < keys.length
      · rw [if_pos ((hmem j).mpr hjn)]
        rw [List.getElem?_append_left (by simpa using hjn)]
        simp [hjn]
      · have hjeq : j = keys.length := by omega
        subst hjeq
        rw [if_neg (by rw [hmem]; omega)]
        rw [List.getElem?_append_right (by simp)]
        simp
    · have hr1 : res.length ≤ j := by
        rw [hlen]
        simp
        omega
      have hr2 : ((List.range keys.length).map closeRes ++
          [(none : Option Err)]).length ≤ j := by
        simp
        omega
      rw [List.getElem?_eq_none hr1, List.getElem?_eq_none hr2]
  rw [heq, hres]

lemma set_append_singleton (A : List (Option Err)) (x y : Option Err) :
    ∀ n, n = A.length → (A ++ [x]).set n y = A ++ [y] := by
  induction A with
  | nil =>
    intro n hn
    subst hn
    rfl
  | cons a rest ih =>
    intro n hn
    subst hn
    show a :: (rest ++ [x]).set rest.length y = a :: (rest ++ [y])
    rw [ih rest.length rfl]

/-- The first `Close` call on a reader whose piece keys enumerate
`{0, …, n-1}`: the `sync.Once` body runs once, closes every piece stream and
the stripe reader, stores the canonical aggregate and returns it. -/
lemma closeStep_body (closeRes : Nat → Option Err) (stripeRes : Option Err)
    (s : DRFull) (hdone : s.onceDone = false)
    (hperm : s.keys.Perm (List.range s.keys.length)) :
    closeStep closeRes stripeRes s =
      (some (closeAggregate closeRes stripeRes s.keys.length),
       { s with onceDone := true,
                closeErrStored := closeAggregate closeRes stripeRes s.keys.length,
                pieceCloseCnt := bumpAll s.keys s.pieceCloseCnt,
                stripeCloseCnt := s.stripeCloseCnt + 1 }) := by
  have hlp := closeLoop_perm closeRes s.keys hperm
  have hset : ((List.range s.keys.length).map closeRes ++
        [(none : Option Err)]).set s.keys.length stripeRes =
      (List.range s.keys.length).map closeRes ++ [stripeRes] :=
    set_append_singleton ((List.range s.keys.length).map closeRes) none stripeRes
      s.keys.length (by simp)
  simp only [closeStep, hdone, Bool.false_eq_true, if_false, hlp, hset]
  rfl

/-- After the one-shot close latch is set, further operations return the
stored aggregate on every `Close` and never touch the close-side state. -/
lemma runOps_closed (stripes : Nat → Except Err Bytes) (closeRes : Nat → Option Err)
    (stripeRes : Option Err) :
    ∀ (ops : List Op) (s : DRFull), s.onceDone = true →
      (∀ x ∈ (runOps stripes closeRes stripeRes ops s).1, x = some s.closeErrStored) ∧
      (runOps stripes closeRes stripeRes ops s).2.keys = s.keys ∧
      (runOps stripes closeRes stripeRes ops s).2.pieceCloseCnt = s.pieceCloseCnt ∧
      (runOps stripes closeRes stripeRes ops s).2.stripeCloseCnt = s.stripeCloseCnt ∧
      (runOps stripes closeRes stripeRes ops s).2.closeErrStored = s.closeErrStored ∧
      (runOps stripes closeRes stripeRes ops s).2.onceDone = true := by
  intro ops
  induction ops with
  | nil =>
    intro s hdone
    exact ⟨by simp [runOps], rfl, rfl, rfl, rfl, hdone⟩
  | cons op rest ih =>
    intro s hdone
    cases op with
    | read sz =>
      simp only [runOps]
      exact ih { s with rd := (drRead stripes s.rd sz).2.2 } hdone
    | close =>
      have hstep : closeStep closeRes stripeRes s = (some s.closeErrStored, s) := by
        simp [closeStep, hdone]
      simp only [runOps, hstep]
      obtain ⟨ha, hb, hc, hd, he, hf⟩ := ih s hdone
      refine ⟨?_, hb, hc, hd, he, hf⟩
      intro x hx
      rcases List.mem_cons.mp hx with hx | hx
      · exact hx
      · exact ha x hx

/-- Running any interleaving of reads and closes from a fresh reader whose
keys enumerate `{0, …, n-1}`: every close returns the canonical aggregate, and
the close bodies run exactly once overall (or never, when no close occurs). -/
lemma runOps_inv (stripes : Nat → Except Err Bytes) (closeRes : Nat → Option Err)
    (stripeRes : Option Err) (keys : List Nat)
    (hperm : keys.Perm (List.range keys.length)) :
    ∀ (ops : List Op) (s : DRFull), s.keys = keys → s.onceDone = false →
      s.pieceCloseCnt = (fun _ => 0) → s.stripeCloseCnt = 0 →
      (∀ x ∈ (runOps stripes closeRes stripeRes ops s).1,
        x = some (closeAggregate closeRes stripeRes keys.length)) ∧
      (Op.close ∈ ops →
        ((runOps stripes closeRes stripeRes ops s).2.pieceCloseCnt = bumpAll keys (fun _ => 0) ∧
         (runOps stripes closeRes stripeRes ops s).2.stripeCloseCnt = 1)) ∧
      (Op.close ∉ ops →
        ((runOps stripes closeRes stripeRes ops s).2.pieceCloseCnt = (fun _ => 0) ∧
         (runOps stripes closeRes stripeRes ops s).2.stripeCloseCnt = 0)) := by
  intro ops
  induction ops with
  | nil =>
    intro s _ _ hcnt hscnt
    refine ⟨by simp [runOps], by intro h; simp at h, fun _ => ⟨hcnt, hscnt⟩⟩
  | cons op rest ih =>
    intro s hkeys hdone hcnt hscnt
    cases op with
    | read sz =>
      simp only [runOps]
      obtain ⟨ha, hb, hc⟩ :=
        ih { s with rd := (drRead stripes s.rd sz).2.2 } hkeys hdone hcnt hscnt
      refine ⟨ha, ?_, ?_⟩
      · intro hmem
        have hr : Op.close ∈ rest := by
          rcases List.mem_cons.mp hmem with h | h
          · exact absurd h (by simp)
          · exact h
        exact hb hr
      · intro hmem
        exact hc (fun h => hmem (List.mem_cons_of_mem _ h))
    | close =>
      have hpermS : s.keys.Perm (List.range s.keys.length) := by
        rw [hkeys]
        exact hperm
      have hstep := closeStep_body closeRes stripeRes s hdone hpermS
      simp only [runOps, hstep]
      obtain ⟨ha, hb, hc, hd, he, _⟩ := runOps_closed stripes closeRes stripeRes rest
        { s with onceDone := true,
                 closeErrStored := closeAggregate closeRes stripeRes s.keys.length,
                 pieceCloseCnt := bumpAll s.keys s.pieceCloseCnt,
                 stripeCloseCnt := s.stripeCloseCnt + 1 } rfl
      refine ⟨?_, ?_, ?_⟩
      · intro x hx
        rcases List.mem_cons.mp hx with h | h
        · rw [h, hkeys]
        · rw [ha x h]
          show some (closeAggregate closeRes stripeRes s.keys.length) = _
          rw [hkeys]
      · intro _
        constructor
        · rw [hc]
          show bumpAll s.keys s.pieceCloseCnt = _
          rw [hcnt, hkeys]
        · rw [hd]
          show s.stripeCloseCnt + 1 = 1
          rw [hscnt]
      · intro hmem
        exact absurd (List.mem_cons_self _ _) hmem

/-! ## The claims -/

/-- C1: for every stripe source, erasure scheme and expected size
`S = T * dbs` (a non-negative multiple of the decoded block size), if every
`ReadStripe` call for stripes `0 .. T-1` succeeds (producing blocks of the
scheme's decoded block size), the reader built by `DecodeReaders` yields
exactly `S` bytes across its `Read` calls — for any sequence of caller buffer
sizes containing enough positive requests — and then returns `EndOfStream`
(`io.EOF`), which every subsequent `Read` returns again. -/
theorem c1_decoded_reader_length_exact
    (dbs T : Nat) (stripes : Nat → Except Err Bytes) (sizes : List Nat)
    (hdbs : 0 < dbs)
    (hstripes : Healthy stripes T dbs)
    (hsizes : T * dbs + 1 ≤ posCount sizes) :
    DecodeReaders dbs ((T : Int) * (dbs : Int)) 0 = DecReader.ok (initState T) ∧
    (drReadMany stripes sizes (initState T)).1.length = T * dbs ∧
    (drReadMany stripes sizes (initState T)).2.err = some Err.eof ∧
    ∀ sz, drRead stripes (drReadMany stripes sizes (initState T)).2 sz =
      ([], some Err.eof, (drReadMany stripes sizes (initState T)).2) := by
  have hlen : (future stripes (initState T)).length = T * dbs := by
    rw [future_initState]
    simpa using tailBlocks_length hstripes T 0 (by omega)
  have hgood : Good T (initState T) := ⟨rfl, rfl, Nat.zero_le T⟩
  obtain ⟨st2, heq, herr2, hbuf2⟩ :=
    drReadMany_drain hdbs hstripes sizes (initState T) hgood (by omega)
  refine ⟨DecodeReaders_ok dbs T 0 hdbs le_rfl, ?_, ?_, ?_⟩
  · rw [heq]
    exact hlen
  · rw [heq]
    exact herr2
  · intro sz
    rw [heq]
    exact drRead_stuck herr2 hbuf2 sz

/-- Witness for C1 at a concrete instance: two stripes of two bytes each,
read with five one-byte requests. -/
theorem c1_decoded_reader_length_exact_witness :
    DecodeReaders 2 ((2 : Nat) * ((2 : Nat) : Int)) 0 = DecReader.ok (initState 2) ∧
    (drReadMany (fun _ => Except.ok [3, 7]) [1, 1, 1, 1, 1] (initState 2)).1.length = 2 * 2 ∧
    (drReadMany (fun _ => Except.ok [3, 7]) [1, 1, 1, 1, 1] (initState 2)).2.err = some Err.eof ∧
    ∀ sz, drRead (fun _ => Except.ok [3, 7])
        (drReadMany (fun _ => Except.ok [3, 7]) [1, 1, 1, 1, 1] (initState 2)).2 sz =
      ([], some Err.eof,
        (drReadMany (fun _ => Except.ok [3, 7]) [1, 1, 1, 1, 1] (initState 2)).2) :=
  c1_decoded_reader_length_exact 2 2 (fun _ => Except.ok [3, 7]) [1, 1, 1, 1, 1]
    (by decide) (fun i _ => ⟨[3, 7], rfl, rfl⟩) (by decide)

/-- C6: errors are sticky.  Whenever a `Read` on the decoded reader returns a
non-nil error `e`, it returns no bytes, and every subsequent `Read` — single
or iterated — returns `(0, e)` without changing the state. -/
theorem c6_error_sticky (stripes : Nat → Except Err Bytes) (st : DRState)
    (sz : Nat) (taken : Bytes) (e : Err) (st2 : DRState)
    (h : drRead stripes st sz = (taken, some e, st2)) :
    taken = [] ∧ st2.err = some e ∧ st2.outbuf = [] ∧
    (∀ sz2, drRead stripes st2 sz2 = ([], some e, st2)) ∧
    ∀ sizes, drReadMany stripes sizes st2 = ([], st2) := by
  have key : taken = [] ∧ st2.err = some e ∧ st2.outbuf = [] := by
    rw [drRead] at h
    split at h
    case isTrue hbuf =>
      split at h
      case h_1 e0 herr =>
        simp only [Prod.mk.injEq] at h
        obtain ⟨h1, h2, h3⟩ := h
        refine ⟨h1.symm, ?_, ?_⟩
        · rw [← h3, herr, h2]
        · rw [← h3]
          exact List.length_eq_zero.mp hbuf
      case h_2 herr =>
        split at h
        · simp only [Prod.mk.injEq] at h
          obtain ⟨h1, h2, h3⟩ := h
          refine ⟨h1.symm, ?_, ?_⟩
          · rw [← h3, ← h2]
          · rw [← h3]
            exact List.length_eq_zero.mp hbuf
        · split at h
          case h_1 ob e1 hrs =>
            have hob : ob = [] := by
              rw [readStripe] at hrs
              split at hrs
              · simp at hrs
              · simp only [Prod.mk.injEq] at hrs
                exact hrs.1.symm
            simp only [Prod.mk.injEq] at h
            obtain ⟨h1, h2, h3⟩ := h
            refine ⟨h1.symm, ?_, ?_⟩
            · rw [← h3, ← h2]
            · rw [← h3, hob]
          case h_2 ob hrs =>
            simp at h
    case isFalse hbuf =>
      simp at h
  obtain ⟨h1, h2, h3⟩ := key
  exact ⟨h1, h2, h3, fun sz2 => drRead_stuck h2 h3 sz2,
    fun sizes => drReadMany_stuck h2 h3 sizes⟩

/-- Witness for C6 at a concrete instance: the first stripe fails with
`NotEnoughPieces`; the error then repeats forever. -/
theorem c6_error_sticky_witness :
    ([] : Bytes) = [] ∧
    ({ outbuf := [], err := some Err.notEnoughPieces, currentStripe := 0,
       expectedStripes := 1 } : DRState).err = some Err.notEnoughPieces ∧
    ({ outbuf := [], err := some Err.notEnoughPieces, currentStripe := 0,
       expectedStripes := 1 } : DRState).outbuf = [] ∧
    (∀ sz2, drRead (fun _ => Except.error Err.notEnoughPieces)
        { outbuf := [], err := some Err.notEnoughPieces, currentStripe := 0,
          expectedStripes := 1 } sz2 =
      ([], some Err.notEnoughPieces,
        { outbuf := [], err := some Err.notEnoughPieces, currentStripe := 0,
          expectedStripes := 1 })) ∧
    ∀ sizes, drReadMany (fun _ => Except.error Err.notEnoughPieces) sizes
        { outbuf := [], err := some Err.notEnoughPieces, currentStripe := 0,
          expectedStripes := 1 } =
      ([], { outbuf := [], err := some Err.notEnoughPieces, currentStripe := 0,
             expectedStripes := 1 }) :=
  c6_error_sticky (fun _ => Except.error Err.notEnoughPieces) (initState 1) 9 []
    Err.notEnoughPieces
    { outbuf := [], err := some Err.notEnoughPieces, currentStripe := 0,
      expectedStripes := 1 }
    (by decide)

/-- C7: every construction-contract violation (negative expected size,
expected size not a multiple of the decoded block size, invalid memory
budget, checked in that order) makes `DecodeReaders` return the fatal
reader for the corresponding `InvalidArgument` error: its every `Read`
yields that error and no bytes, and its `Close` is a no-op success.  No
live reader state (and hence no piece stream) is ever constructed. -/
theorem c7_construction_violations_fatal (dbs : Nat) (expectedSize mbm : Int)
    (h : expectedSize < 0 ∨ (0 ≤ expectedSize ∧ expectedSize % (dbs : Int) ≠ 0) ∨
         (0 ≤ expectedSize ∧ expectedSize % (dbs : Int) = 0 ∧ mbm < 0)) :
    ∃ e, DecodeReaders dbs expectedSize mbm = DecReader.fatal e ∧
      (∀ stripes sz, decRead stripes (DecReader.fatal e) sz =
        ([], some e, DecReader.fatal e)) ∧
      fatalClose e = none ∧
      (expectedSize < 0 → e = Err.negSize) ∧
      (0 ≤ expectedSize → expectedSize % (dbs : Int) ≠ 0 → e = Err.notMultiple) ∧
      (0 ≤ expectedSize → expectedSize % (dbs : Int) = 0 → mbm < 0 →
        e = Err.invalidMBM) := by
  rcases h with hneg | ⟨hpos, hmod⟩ | ⟨hpos, hmod, hmbm⟩
  · refine ⟨Err.negSize, ?_, fun _ _ => rfl, rfl, fun _ => rfl, ?_, ?_⟩
    · simp [DecodeReaders, hneg]
    · intro hp _
      omega
    · intro hp _ _
      omega
  · refine ⟨Err.notMultiple, ?_, fun _ _ => rfl, rfl, ?_, fun _ _ => rfl, ?_⟩
    · simp [DecodeReaders, hmod]
      omega
    · intro hc
      omega
    · intro _ hc _
      exact absurd hc hmod
  · refine ⟨Err.invalidMBM, ?_, fun _ _ => rfl, rfl, ?_, ?_, fun _ _ _ => rfl⟩
    · simp [DecodeReaders, hmod, hmbm]
      omega
    · intro hc
      omega
    · intro _ hc
      exact absurd hmod hc

/-- Witness for C7 at the spec's own scenario: `expected_size = 7` with
decoded block size 4. -/
theorem c7_construction_violations_fatal_witness :
    ∃ e, DecodeReaders 4 7 0 = DecReader.fatal e ∧
      (∀ stripes sz, decRead stripes (DecReader.fatal e) sz =
        ([], some e, DecReader.fatal e)) ∧
      fatalClose e = none ∧
      ((7 : Int) < 0 → e = Err.negSize) ∧
      ((0 : Int) ≤ 7 → (7 : Int) % ((4 : Nat) : Int) ≠ 0 → e = Err.notMultiple) ∧
      ((0 : Int) ≤ 7 → (7 : Int) % ((4 : Nat) : Int) = 0 → (0 : Int) < 0 →
        e = Err.invalidMBM) :=
  c7_construction_violations_fatal 4 7 0 (Or.inr (Or.inl ⟨by decide, by decide⟩))

/-- C3, counterexample: for a map keyed by an arbitrary piece index (a single
reader at key 7), `Close` panics on the out-of-bounds store `errs[7]` into the
2-element error slice and returns no aggregate at all, refuting the claim for
arbitrary piece indices. -/
theorem c3_close_panics_on_sparse_keys :
    (closeStep (fun _ => none) none (freshState [7] 0)).1 = none := rfl

/-- C3, amended: for piece-reader maps whose keys are exactly
`{0, …, n-1}` (in any map-iteration order), `Close` returns the single
aggregate combining the close errors of all piece streams and of the stripe
reader in deterministic order — piece errors in ascending piece index, the
stripe reader's last — and the aggregate is nil exactly when every component
closed cleanly.  (For a map with a key outside that range the close loop
panics instead; see the counterexample.) -/
theorem c3_close_aggregate_deterministic (keys : List Nat) (T : Nat)
    (closeRes : Nat → Option Err) (stripeRes : Option Err)
    (hperm : keys.Perm (List.range keys.length)) :
    (closeStep closeRes stripeRes (freshState keys T)).1 =
      some (closeAggregate closeRes stripeRes keys.length) ∧
    (closeAggregate closeRes stripeRes keys.length = none ↔
      (∀ k, k < keys.length → closeRes k = none) ∧ stripeRes = none) ∧
    ∀ l, closeAggregate closeRes stripeRes keys.length = some l →
      l = ((List.range keys.length).map closeRes).filterMap id ++ stripeRes.toList := by
  have hbody := closeStep_body closeRes stripeRes (freshState keys T) rfl hperm
  refine ⟨by rw [hbody]; rfl, ?_, ?_⟩
  · rw [closeAggregate, combineErrors]
    constructor
    · intro h
      split at h
      case h_1 hfm =>
        rw [List.filterMap_eq_nil_iff] at hfm
        constructor
        · intro k hk
          exact hfm (closeRes k)
            (List.mem_append_left _ (List.mem_map_of_mem closeRes (List.mem_range.mpr hk)))
        · exact hfm stripeRes (List.mem_append_right _ (List.mem_singleton_self _))
      case h_2 => exact absurd h (by simp)
    · intro ⟨h1, h2⟩
      have hfm : ((List.range keys.length).map closeRes ++ [stripeRes]).filterMap id = [] := by
        rw [List.filterMap_eq_nil_iff]
        intro a ha
        rcases List.mem_append.mp ha with ha | ha
        · obtain ⟨k, hk, hka⟩ := List.mem_map.mp ha
          rw [← hka]
          exact h1 k (List.mem_range.mp hk)
        · rw [List.mem_singleton.mp ha]
          exact h2
      rw [hfm]
  · intro l hl
    rw [closeAggregate, combineErrors] at hl
    split at hl
    case h_1 => exact absurd hl (by simp)
    case h_2 e rest heq =>
      have hle : l = e :: rest := by
        simpa using hl.symm
      rw [hle, ← heq, List.filterMap_append]
      refine congrArg (fun x => _ ++ x) ?_
      cases stripeRes <;> rfl

/-- Witness for C3 at a concrete instance: three pieces closed in the
map-iteration order `[2, 0, 1]`, piece 1 and the stripe reader failing. -/
theorem c3_close_aggregate_deterministic_witness :
    (closeStep (fun k => if k = 1 then some (Err.other 11) else none)
        (some (Err.other 99)) (freshState [2, 0, 1] 4)).1 =
      some (closeAggregate (fun k => if k = 1 then some (Err.other 11) else none)
        (some (Err.other 99)) 3) ∧
    (closeAggregate (fun k => if k = 1 then some (Err.other 11) else none)
        (some (Err.other 99)) 3 = none ↔
      (∀ k, k < 3 →
        (fun k => if k = 1 then some (Err.other 11) else none) k = none) ∧
      (some (Err.other 99) : Option Err) = none) ∧
    ∀ l, closeAggregate (fun k => if k = 1 then some (Err.other 11) else none)
        (some (Err.other 99)) 3 = some l →
      l = ((List.range 3).map (fun k => if k = 1 then some (Err.other 11) else none)).filterMap id ++
        (some (Err.other 99) : Option Err).toList :=
  c3_close_aggregate_deterministic [2, 0, 1] 4
    (fun k => if k = 1 then some (Err.other 11) else none) (some (Err.other 99))
    (by decide)

/-- C5, counterexample: on a reader over a map with a single reader at key 5,
the very first `Close` call panics on the out-of-bounds store instead of
returning an aggregate, so `Close` does not return the same aggregate on
every call. -/
theorem c5_close_panic_no_aggregate :
    (runOps (fun _ => Except.ok [0]) (fun _ => none) none [Op.close]
      (freshState [5] 1)).1 = [none] := rfl

/-- C5, amended: for piece-reader maps whose keys are exactly `{0, …, n-1}`,
calling `Close` any number of times, in any interleaving with `Read` calls,
returns the same aggregate (the canonical one) on every call, and each piece
stream's `Close` and the stripe reader's `Close` run exactly once across all
those calls — and not at all if no `Close` occurs. -/
theorem c5_close_idempotent_amended (stripes : Nat → Except Err Bytes)
    (closeRes : Nat → Option Err) (stripeRes : Option Err)
    (keys : List Nat) (T : Nat) (ops : List Op)
    (hperm : keys.Perm (List.range keys.length)) :
    (∀ x ∈ (runOps stripes closeRes stripeRes ops (freshState keys T)).1,
       x = some (closeAggregate closeRes stripeRes keys.length)) ∧
    (Op.close ∈ ops →
       (∀ k ∈ keys,
         (runOps stripes closeRes stripeRes ops (freshState keys T)).2.pieceCloseCnt k = 1) ∧
       (runOps stripes closeRes stripeRes ops (freshState keys T)).2.stripeCloseCnt = 1) ∧
    (Op.close ∉ ops →
       (∀ k, (runOps stripes closeRes stripeRes ops (freshState keys T)).2.pieceCloseCnt k = 0) ∧
       (runOps stripes closeRes stripeRes ops (freshState keys T)).2.stripeCloseCnt = 0) := by
  obtain ⟨ha, hb, hc⟩ :=
    runOps_inv stripes closeRes stripeRes keys hperm ops (freshState keys T) rfl rfl rfl rfl
  have hnodup : keys.Nodup := hperm.nodup_iff.mpr (List.nodup_range _)
  refine ⟨ha, ?_, ?_⟩
  · intro hmem
    obtain ⟨hcnt, hscnt⟩ := hb hmem
    refine ⟨?_, hscnt⟩
    intro k hk
    rw [hcnt]
    show 0 + keys.count k = 1
    rw [List.count_eq_one_of_mem hnodup hk]
  · intro hmem
    obtain ⟨hcnt, hscnt⟩ := hc hmem
    exact ⟨fun k => by rw [hcnt], hscnt⟩

/-- Witness for C5 at a concrete instance: keys `[1, 0]`, a read between two
closes and one after; both closes return the same aggregate and each
component is closed exactly once. -/
theorem c5_close_idempotent_amended_witness :
    (∀ x ∈ (runOps (fun _ => Except.ok [6]) (fun k => if k = 0 then some (Err.other 3) else none)
        none [Op.read 1, Op.close, Op.close, Op.read 2, Op.close]
        (freshState [1, 0] 2)).1,
       x = some (closeAggregate (fun k => if k = 0 then some (Err.other 3) else none) none 2)) ∧
    (Op.close ∈ [Op.read 1, Op.close, Op.close, Op.read 2, Op.close] →
       (∀ k ∈ [1, 0],
         (runOps (fun _ => Except.ok [6]) (fun k => if k = 0 then some (Err.other 3) else none)
            none [Op.read 1, Op.close, Op.close, Op.read 2, Op.close]
            (freshState [1, 0] 2)).2.pieceCloseCnt k = 1) ∧
       (runOps (fun _ => Except.ok [6]) (fun k => if k = 0 then some (Err.other 3) else none)
          none [Op.read 1, Op.close, Op.close, Op.read 2, Op.close]
          (freshState [1, 0] 2)).2.stripeCloseCnt = 1) ∧
    (Op.close ∉ [Op.read 1, Op.close, Op.close, Op.read 2, Op.close] →
       (∀ k, (runOps (fun _ => Except.ok [6]) (fun k => if k = 0 then some (Err.other 3) else none)
          none [Op.read 1, Op.close, Op.close, Op.read 2, Op.close]
          (freshState [1, 0] 2)).2.pieceCloseCnt k = 0) ∧
       (runOps (fun _ => Except.ok [6]) (fun k => if k = 0 then some (Err.other 3) else none)
          none [Op.read 1, Op.close, Op.close, Op.read 2, Op.close]
          (freshState [1, 0] 2)).2.stripeCloseCnt = 0) :=
  c5_close_idempotent_amended (fun _ => Except.ok [6])
    (fun k => if k = 0 then some (Err.other 3) else none) none [1, 0] 2
    [Op.read 1, Op.close, Op.close, Op.read 2, Op.close] (by decide)

/-- C9 (code bug, evaluated at the failing input): `Close` on a reader whose
piece map holds a single reader at key 5 allocates a 2-element error slice
and then stores to index 5 — the close loop hits the out-of-bounds store
(a Go `index out of range` panic) right after closing that piece's stream. -/
theorem c9_close_out_of_bounds :
    closeLoop (fun _ => none) [5] (List.replicate 2 none) = (none, [5]) := rfl

/-- C8, counterexample: on a ranger with two 4-byte decoded blocks (size 8),
`Range(offset = 5, length = 0)` covers zero blocks, but the head discard of
`5 mod 4 = 1` byte runs against the empty decoded reader, so `io.CopyN`
reports `io.EOF` and `Range` returns that wrapped error instead of an empty
reader — refuting the claim for offsets that are not a multiple of the
decoded block size. -/
theorem c8_unaligned_zero_length_errors :
    rangerRange (fun _ => [0, 0, 0, 0]) 2 4 0 5 0 =
      Except.error (Err.wrapped Err.eof) := rfl

/-- C8, amended: for every successfully constructed decoded ranger and every
offset with `0 ≤ offset ≤ size()` that is a multiple of the decoded block
size, `Range(ctx, offset, 0)` covers zero blocks and returns, without error,
an empty reader that yields EOF on its first (and every) read.  When the
offset is not a multiple of the decoded block size, `Range(ctx, offset, 0)`
returns a wrapped EOF error instead (see the counterexample). -/
theorem c8_zero_length_aligned_amended
    (X : Nat → Bytes) (numBlocks dbs : Nat) (mbm : Int) (offset : Nat)
    (hdbs : 0 < dbs) (hmbm : 0 ≤ mbm)
    (_hoff : offset ≤ numBlocks * dbs) (hal : offset % dbs = 0) :
    (calcEncompassingBlocks offset 0 dbs).2 = 0 ∧
    rangerRange X numBlocks dbs mbm offset 0 =
      Except.ok ⟨DecReader.ok (initState 0), 0⟩ ∧
    ∀ stripes sz, limRead stripes ⟨DecReader.ok (initState 0), 0⟩ sz =
      ([], some Err.eof, ⟨DecReader.ok (initState 0), 0⟩) := by
  refine ⟨by rw [calc_zero_length], ?_, fun stripes sz => by simp [limRead]⟩
  exact rangerRange_zero_aligned X numBlocks dbs mbm offset hdbs hmbm hal

/-- Witness for C8 at the spec's own scenario: `X = "ABCDEFGH"` (two 4-byte
blocks), `range(offset = 4, length = 0)`. -/
theorem c8_zero_length_aligned_amended_witness :
    (calcEncompassingBlocks 4 0 4).2 = 0 ∧
    rangerRange (fun j => [65 + 4 * j, 66 + 4 * j, 67 + 4 * j, 68 + 4 * j]) 2 4 0 4 0 =
      Except.ok ⟨DecReader.ok (initState 0), 0⟩ ∧
    ∀ stripes sz, limRead stripes ⟨DecReader.ok (initState 0), 0⟩ sz =
      ([], some Err.eof, ⟨DecReader.ok (initState 0), 0⟩) :=
  c8_zero_length_aligned_amended
    (fun j => [65 + 4 * j, 66 + 4 * j, 67 + 4 * j, 68 + 4 * j]) 2 4 0 4
    (by decide) (by decide) (by decide) (by decide)

/-- C2: range correctness of `decodedRanger.Range`.  For a ranger over
`numBlocks` decoded blocks of size `dbs` (stream `X`), any window with
`offset + length ≤ size()`: whenever `Range` returns a reader (it does for
every positive length, and for length 0 at aligned offsets), draining that
reader with enough positive-size reads yields exactly the decoded bytes
`X[offset .. offset+length)` — the discarded head bytes and the bytes past
the limit are never visible — and the total yield is exactly
`min(length, size() - offset)` bytes, after which every read returns EOF. -/
theorem c2_range_window_exact
    (X : Nat → Bytes) (numBlocks dbs : Nat) (mbm : Int)
    (offset length : Nat) (sizes : List Nat)
    (hdbs : 0 < dbs) (hmbm : 0 ≤ mbm)
    (hX : ∀ j, j < numBlocks → (X j).length = dbs)
    (hbound : offset + length ≤ numBlocks * dbs)
    (hsizes : length + 1 ≤ posCount sizes) :
    (0 < length ∨ offset % dbs = 0 →
      ∃ lr, rangerRange X numBlocks dbs mbm offset length = Except.ok lr) ∧
    ∀ lr, rangerRange X numBlocks dbs mbm offset length = Except.ok lr →
      ∃ lr2,
        limReadMany (subStripes X numBlocks (calcEncompassingBlocks offset length dbs).1)
          sizes lr = (((streamBytes X numBlocks).drop offset).take length, lr2) ∧
        (((streamBytes X numBlocks).drop offset).take length).length =
          min length (numBlocks * dbs - offset) ∧
        lr2.remaining = 0 ∧
        ∀ sz, limRead (subStripes X numBlocks (calcEncompassingBlocks offset length dbs).1)
            lr2 sz = ([], some Err.eof, lr2) := by
  have hstreamlen : (streamBytes X numBlocks).length = numBlocks * dbs := by
    rw [streamBytes]
    exact segJoin_length X dbs numBlocks 0 (fun j _ hj => hX j (by omega))
  have hwinlen : (((streamBytes X numBlocks).drop offset).take length).length =
      min length (numBlocks * dbs - offset) := by
    rw [List.length_take, List.length_drop, hstreamlen]
  by_cases hlen : 0 < length
  · -- positive window: the discard succeeds and the limit reader yields it
    obtain ⟨hfb, hsum, hwin, hmul, hbcpos⟩ :=
      calc_window_pos offset length dbs numBlocks hdbs hlen hbound
    obtain ⟨hdisc, hfble, hmodlt⟩ := head_discard_eq_mod offset length dbs hdbs
    set fb := (calcEncompassingBlocks offset length dbs).1 with hfbdef
    set bc := (calcEncompassingBlocks offset length dbs).2 with hbcdef
    set stripes := subStripes X numBlocks fb with hstripesdef
    have hH : Healthy stripes bc dbs := healthy_subStripes X numBlocks fb bc dbs hX hwin
    have hfut0 : future stripes (initState bc) = segJoin X fb bc := by
      rw [future_initState]
      have := tailBlocks_subStripes X numBlocks fb bc 0 (by omega)
      simpa using this
    have hseglen : (segJoin X fb bc).length = bc * dbs :=
      segJoin_length X dbs bc fb (fun j h1 h2 => hX j (by omega))
    have hdistr : (fb + bc) * dbs = fb * dbs + bc * dbs := Nat.add_mul fb bc dbs
    have hdbc : offset % dbs ≤ bc * dbs := by
      have hone : dbs ≤ bc * dbs := Nat.le_mul_of_pos_left dbs hbcpos
      omega
    have hd : offset - fb * dbs ≤ (future stripes (initState bc)).length := by
      rw [hfut0, hseglen, hdisc]
      exact hdbc
    obtain ⟨st1, hdiscEq, hg1, hfut1⟩ :=
      discardN_good hdbs hH (offset - fb * dbs) (initState bc)
        ⟨rfl, rfl, Nat.zero_le bc⟩ hd
    have hok : rangerRange X numBlocks dbs mbm offset length =
        Except.ok ⟨DecReader.ok st1, length⟩ := by
      rw [rangerRange_eq, ← hfbdef, ← hbcdef, ← hstripesdef,
        DecodeReaders_ok dbs bc mbm hdbs hmbm, hdiscEq]
    refine ⟨fun _ => ⟨_, hok⟩, ?_⟩
    intro lr hlr
    have hlreq : lr = ⟨DecReader.ok st1, length⟩ := by
      rw [hok] at hlr
      exact (Except.ok.inj hlr).symm
    subst hlreq
    have hrem : length ≤ (future stripes st1).length := by
      rw [hfut1, List.length_drop, hfut0, hseglen, hdisc]
      omega
    obtain ⟨st3, hdrain⟩ :=
      limReadMany_drain hdbs hH sizes st1 length hg1 hrem hsizes
    refine ⟨⟨DecReader.ok st3, 0⟩, ?_, hwinlen, rfl, fun sz => by simp [limRead]⟩
    rw [hdrain]
    refine congrArg (fun b => (b, (⟨DecReader.ok st3, 0⟩ : LimitedReader))) ?_
    -- the drained bytes are exactly the requested window of the stream
    have hsplit := streamBytes_split X numBlocks fb bc hwin
    have hAlen : (segJoin X 0 fb).length = fb * dbs :=
      segJoin_length X dbs fb 0 (fun j _ hj => hX j (by omega))
    have hoffeq : offset = (segJoin X 0 fb).length + (offset - fb * dbs) := by
      rw [hAlen]
      omega
    have hdropA : (streamBytes X numBlocks).drop offset =
        (segJoin X fb bc ++ segJoin X (fb + bc) (numBlocks - fb - bc)).drop
          (offset - fb * dbs) := by
      rw [hsplit]
      conv_lhs => rw [hoffeq]
      rw [← List.drop_drop, List.drop_left]
    have hdropB : (segJoin X fb bc ++ segJoin X (fb + bc) (numBlocks - fb - bc)).drop
          (offset - fb * dbs) =
        (segJoin X fb bc).drop (offset - fb * dbs) ++
          segJoin X (fb + bc) (numBlocks - fb - bc) := by
      rw [List.drop_append_of_le_length (by rw [hseglen, hdisc]; exact hdbc)]
    rw [hfut1, hfut0, hdropA, hdropB,
      List.take_append_of_le_length (by rw [List.length_drop, hseglen, hdisc]; omega)]
  · -- zero-length window
    have hlen0 : length = 0 := by omega
    subst hlen0
    obtain ⟨hdisc, hfble, hmodlt⟩ := head_discard_eq_mod offset 0 dbs hdbs
    have hbc0 : (calcEncompassingBlocks offset 0 dbs).2 = 0 := by
      rw [calc_zero_length]
    by_cases hal : offset % dbs = 0
    · have hok := rangerRange_zero_aligned X numBlocks dbs mbm offset hdbs hmbm hal
      refine ⟨fun _ => ⟨_, hok⟩, ?_⟩
      intro lr hlr
      have hlreq : lr = ⟨DecReader.ok (initState 0), 0⟩ := by
        rw [hok] at hlr
        exact (Except.ok.inj hlr).symm
      subst hlreq
      refine ⟨⟨DecReader.ok (initState 0), 0⟩, ?_, hwinlen, rfl,
        fun sz => by simp [limRead]⟩
      rw [limReadMany_zero]
      simp
    · refine ⟨fun hcase => ?_, fun lr hlr => ?_⟩
      · rcases hcase with h | h
        · omega
        · exact absurd h hal
      · rw [rangerRange_eq, hbc0] at hlr
        rw [DecodeReaders_ok dbs 0 mbm hdbs hmbm] at hlr
        rw [discardN_eof _ _ (by rw [hdisc]; omega)] at hlr
        exact absurd hlr (by simp)

/-- C4, counterexample: `Decode` with zero piece sources and a scheme
requiring one piece returns the `NotEnoughPieces` construction error — it
does not succeed with an immediately-EOF ranger as the claim states. -/
theorem c4_decode_zero_sources_errors :
    Decode 1 4 [] 0 = Except.error Err.notEnoughPieces := rfl

/-- C4, amended: `Decode` with zero piece sources returns `NotEnoughPieces`
whenever `required_count ≥ 1` (only for a scheme with `required_count = 0`
does the empty map reach the `ByteRanger(nil)` escape); with at least
`required_count` piece sources all reporting size zero, `Decode` succeeds
with a ranger of size 0 whose `Range` over the empty window returns, without
error, a reader yielding EOF immediately. -/
theorem c4_decode_zero_size_amended (k ebs dbs m : Nat) (mbm : Int)
    (X : Nat → Bytes)
    (hmbm : 0 ≤ mbm) (hdbs : 0 < dbs) (hk : k ≤ m) (hm : 0 < m) :
    (1 ≤ k → Decode k ebs [] mbm = Except.error Err.notEnoughPieces) ∧
    (k = 0 → Decode k ebs [] mbm = Except.ok DecodeResult.byteRangerNil) ∧
    Decode k ebs (List.replicate m 0) mbm = Except.ok (DecodeResult.ranger 0) ∧
    decodedRangerSize 0 ebs dbs = 0 ∧
    rangerRange X (((0 : Int) / (ebs : Int)).toNat) dbs mbm 0 0 =
      Except.ok ⟨DecReader.ok (initState 0), 0⟩ ∧
    ∀ stripes sz, limRead stripes ⟨DecReader.ok (initState 0), 0⟩ sz =
      ([], some Err.eof, ⟨DecReader.ok (initState 0), 0⟩) := by
  have hmbmn : ¬ (mbm < 0) := by omega
  refine ⟨?_, ?_, ?_, ?_, ?_, fun stripes sz => by simp [limRead]⟩
  · intro hk1
    simp only [Decode]
    rw [if_neg hmbmn, if_pos (by simp; omega)]
  · intro hk0
    subst hk0
    simp [Decode, commonSize, hmbmn]
  · simp only [Decode]
    rw [if_neg hmbmn, if_neg (by simp; omega), commonSize_replicate_zero_start m hm]
    norm_num
  · simp [decodedRangerSize]
  · exact rangerRange_zero_aligned X _ dbs mbm 0 hdbs hmbm (Nat.zero_mod dbs)

/-- Witness for C4 at a concrete instance: `k = 2`, three zero-size sources,
encoded block size 4, decoded block size 2. -/
theorem c4_decode_zero_size_amended_witness :
    (1 ≤ 2 → Decode 2 4 [] 0 = Except.error Err.notEnoughPieces) ∧
    ((2 : Nat) = 0 → Decode 2 4 [] 0 = Except.ok DecodeResult.byteRangerNil) ∧
    Decode 2 4 (List.replicate 3 0) 0 = Except.ok (DecodeResult.ranger 0) ∧
    decodedRangerSize 0 4 2 = 0 ∧
    rangerRange (fun _ => [0, 0]) (((0 : Int) / ((4 : Nat) : Int)).toNat) 2 0 0 0 =
      Except.ok ⟨DecReader.ok (initState 0), 0⟩ ∧
    ∀ stripes sz, limRead stripes ⟨DecReader.ok (initState 0), 0⟩ sz =
      ([], some Err.eof, ⟨DecReader.ok (initState 0), 0⟩) :=
  c4_decode_zero_size_amended 2 4 2 3 0 (fun _ => [0, 0])
    (by decide) (by decide) (by decide) (by decide)

/-- C10: `boltClient.Get` on a key with no value stored in the client's
bucket returns a nil value together with a nil error — never an error — and
the result is identical to reading a key under which a nil value was stored:
the two are indistinguishable to the caller. -/
theorem c10_bolt_get_missing_key (bucket : List (Bytes × Option Bytes)) (key : Bytes)
    (hmiss : ∀ kv ∈ bucket, kv.1 ≠ key) :
    boltGet bucket none key = (none, none) ∧
    boltGet ((key, none) :: bucket) none key = (none, none) := by
  have hfind : bucket.find? (fun kv => kv.1 == key) = none := by
    rw [List.find?_eq_none]
    intro kv hkv
    simpa using hmiss kv hkv
  constructor
  · simp [boltGet, bucketGet, hfind]
  · simp [boltGet, bucketGet, List.find?]

/-- Witness for C10 at a concrete instance: a bucket holding one unrelated
entry, queried at an absent key. -/
theorem c10_bolt_get_missing_key_witness :
    boltGet [([1], some [2])] none [3] = (none, none) ∧
    boltGet (([3], none) :: [([1], some [2])]) none [3] = (none, none) :=
  c10_bolt_get_missing_key [([1], some [2])] [3] (by decide)

/-- Witness for C2 at the spec's own scenario: `X = "ABCDEFGH"` (two 4-byte
blocks), `range(offset = 2, length = 5)` yields `"CDEFG"` across six one-byte
reads. -/
theorem c2_range_window_exact_witness :
    (0 < 5 ∨ 2 % 4 = 0 →
      ∃ lr, rangerRange (fun j => [65 + 4 * j, 66 + 4 * j, 67 + 4 * j, 68 + 4 * j])
        2 4 0 2 5 = Except.ok lr) ∧
    ∀ lr, rangerRange (fun j => [65 + 4 * j, 66 + 4 * j, 67 + 4 * j, 68 + 4 * j])
        2 4 0 2 5 = Except.ok lr →
      ∃ lr2,
        limReadMany (subStripes (fun j => [65 + 4 * j, 66 + 4 * j, 67 + 4 * j, 68 + 4 * j])
            2 (calcEncompassingBlocks 2 5 4).1) [1, 1, 1, 1, 1, 1] lr =
          (((streamBytes (fun j => [65 + 4 * j, 66 + 4 * j, 67 + 4 * j, 68 + 4 * j]) 2).drop 2).take 5,
           lr2) ∧
        (((streamBytes (fun j => [65 + 4 * j, 66 + 4 * j, 67 + 4 * j, 68 + 4 * j]) 2).drop 2).take 5).length =
          min 5 (2 * 4 - 2) ∧
        lr2.remaining = 0 ∧
        ∀ sz, limRead (subStripes (fun j => [65 + 4 * j, 66 + 4 * j, 67 + 4 * j, 68 + 4 * j])
            2 (calcEncompassingBlocks 2 5 4).1) lr2 sz = ([], some Err.eof, lr2) :=
  c2_range_window_exact (fun j => [65 + 4 * j, 66 + 4 * j, 67 + 4 * j, 68 + 4 * j])
    2 4 0 2 5 [1, 1, 1, 1, 1, 1] (by decide) (by decide) (by decide) (by decide) (by decide)

